import Mathlib

/-!
Verification development for the `ranking` leaderboard service.

The Go sources are shallowly embedded:
* `Mongo.*` models `internal/repository/mongodb/mongodb.go` (the durable
  score-history store): history is an append-only `List ScoreRecord` for a
  single leaderboard, and the aggregation pipelines of `GetTopScores` /
  `GetUserRank` are translated stage by stage.
* `Redis.*` models `internal/repository/redis/leaderboard_cache.go` together
  with the sorted-set primitives it calls: a `ZSet` is an association list
  kept in redis canonical order (ascending score, ties broken by member
  string), and int64 scores pass through `f64round`, the int64 → float64
  conversion performed by `ZAdd` (`redis.Z.Score` is a `float64`).
* `Service.*` models `internal/service/leaderboard_service.go`; `Handler.*`
  models the batch endpoint of `internal/handler/leaderboard_handler.go`.

Machine integers are modelled as `Int` (no Go arithmetic in the translated
paths can overflow int64), and timestamps as a logical `Nat` clock.  I/O
failure of the durable store on the submission write path is the one fault
the claims need and is injected through an explicit boolean.
-/

/-- Sort direction of a leaderboard (`model.SortOrder`): `desc` ranks the
highest score first, `asc` the lowest. -/
inductive SortOrder where
  | desc
  | asc
deriving DecidableEq, Repr

/-- The weak ordering of scores a sort direction induces: under `desc` the
better (earlier-ranked) score is the larger one. -/
def scoreOrdered (ord : SortOrder) (x y : Int) : Prop :=
  match ord with
  | .desc => y ≤ x
  | .asc => x ≤ y

/-- One immutable score submission (`model.ScoreRecord`), restricted to the
fields the ranking logic reads.  `submittedAt` is a logical clock value. -/
structure ScoreRecord where
  userID : String
  score : Int
  submittedAt : Nat
deriving DecidableEq, Repr

/-- One entry of a rankings response (`model.RankingEntry`), restricted to
the fields the claims are about (the wall-clock `UpdatedAt` and the metadata
payload are carried opaquely by the code and are omitted). -/
structure RankingEntry where
  userID : String
  score : Int
  rank : Int
deriving DecidableEq, Repr

/-- `service.SubmitScoreResponse`. -/
structure SubmitScoreResponse where
  userID : String
  score : Int
  previousScore : Int
  rank : Int
  previousRank : Int
  rankChange : Int
deriving DecidableEq, Repr

/-- `service.UserRankResponse`. -/
structure UserRankResponse where
  userID : String
  score : Int
  rank : Int
  totalUsers : Int
deriving DecidableEq, Repr

/-- `service.BatchSubmitScoreResponse`. -/
structure BatchSubmitScoreResponse where
  successCount : Nat
  failureCount : Nat
  results : List SubmitScoreResponse
  errors : List String
deriving DecidableEq, Repr

/-! ### int64 → float64 rounding

`redis.Z.Score` is a `float64`; Go's `float64(score)` conversion rounds the
int64 to the nearest double, ties to even.  For `|n| < 2 ^ 64` (hence for
every int64) the unit in the last place is determined by the binade of `n`,
which the chain of comparisons below enumerates. -/

/-- Distance between consecutive float64 values at magnitude `m`, for
`2 ^ 53 ≤ m < 2 ^ 64`. -/
def f64ulp (m : Nat) : Nat :=
  if m < 2 ^ 54 then 2
  else if m < 2 ^ 55 then 4
  else if m < 2 ^ 56 then 8
  else if m < 2 ^ 57 then 16
  else if m < 2 ^ 58 then 32
  else if m < 2 ^ 59 then 64
  else if m < 2 ^ 60 then 128
  else if m < 2 ^ 61 then 256
  else if m < 2 ^ 62 then 512
  else if m < 2 ^ 63 then 1024
  else 2048

/-- Round a natural number below `2 ^ 64` to the nearest float64-representable
integer, ties to even. -/
def f64roundNat (m : Nat) : Nat :=
  if m < 2 ^ 53 then m
  else
    let u := f64ulp m
    let q := m / u
    let r := m % u
    if 2 * r < u then q * u
    else if u < 2 * r then (q + 1) * u
    else if q % 2 = 0 then q * u else (q + 1) * u

/-- The value an int64 score holds after Go's `float64(score)` conversion
(for `|n| < 2 ^ 64`, which covers all of int64). -/
def f64round (n : Int) : Int :=
  if 0 ≤ n then (f64roundNat n.toNat : Int) else -(f64roundNat (-n).toNat : Int)

theorem f64roundNat_eq_of_le (m : Nat) (h : m ≤ 2 ^ 53) : f64roundNat m = m := by
  rcases Nat.lt_or_ge m (2 ^ 53) with hlt | hge
  · unfold f64roundNat
    rw [if_pos hlt]
  · have : m = 2 ^ 53 := le_antisymm h hge
    subst this
    decide

theorem f64round_eq_of_natAbs_le (n : Int) (h : n.natAbs ≤ 2 ^ 53) : f64round n = n := by
  unfold f64round
  rcases le_or_lt 0 n with hn | hn
  · have h1 : n.toNat ≤ 2 ^ 53 := by omega
    rw [if_pos hn, f64roundNat_eq_of_le _ h1]
    omega
  · have h1 : (-n).toNat ≤ 2 ^ 53 := by omega
    rw [if_neg (by omega), f64roundNat_eq_of_le _ h1]
    omega

namespace Redis

/-- The sorted set backing one leaderboard key (`leaderboard:<id>`): an
association list member → stored score, kept in redis canonical ascending
order (by score, ties by member string) with pairwise-distinct members. -/
abbrev ZSet := List (String × Int)

/-- The empty sorted set (a missing redis key). -/
def zempty : ZSet := []

/-- Canonical strict order of the sorted set: ascending score, equal scores
ordered lexicographically by member. -/
def zbefore (a b : String × Int) : Bool :=
  if a.2 = b.2 then a.1 < b.1 else a.2 < b.2

/-- Insert an element at its canonical position. -/
def zinsert (e : String × Int) : ZSet → ZSet
  | [] => [e]
  | x :: xs => if zbefore e x then e :: x :: xs else x :: zinsert e xs

/-- Stored score of a member, if present (first entry with the member's
name; entries always have pairwise-distinct members). -/
def zlookup : ZSet → String → Option Int
  | [], _ => none
  | e :: es, u => if e.1 = u then some e.2 else zlookup es u

/-- `ZADD key score member`: upsert, storing `float64(score)`. -/
def ZAdd (z : ZSet) (u : String) (s : Int) : ZSet :=
  zinsert (u, f64round s) (z.filter (fun e => ¬ e.1 = u))

/-- The member list in the order used for the requested sort direction:
`asc` reads the set ascending (ZRANGE), `desc` descending (ZREVRANGE). -/
def ordered (z : ZSet) : SortOrder → List (String × Int)
  | .desc => z.reverse
  | .asc => z

/-- Normalize-and-clamp index semantics of redis range commands:
negative indices count from the end, the range is inclusive, and an empty
slice results when the clamped start exceeds the clamped stop. -/
def redisRange (l : List (String × Int)) (start stop : Int) : List (String × Int) :=
  let n : Int := l.length
  let s0 := if start < 0 then n + start else start
  let e0 := if stop < 0 then n + stop else stop
  let s := max s0 0
  let e := min e0 (n - 1)
  if e < s then [] else (l.drop s.toNat).take (e - s + 1).toNat

/-- `GetScore` (leaderboard_cache.go): `ZSCORE`, with a missing member
reported as score `0` and no error (`redis.Nil` is swallowed). -/
def GetScore (z : ZSet) (u : String) : Int :=
  match zlookup z u with
  | none => 0
  | some s => s

/-- `GetRank` (leaderboard_cache.go): `ZREVRANK`/`ZRANK` converted to a
1-based rank, with a missing member reported as rank `0` and no error. -/
def GetRank (z : ZSet) (u : String) (ord : SortOrder) : Int :=
  match (ordered z ord).findIdx? (fun e => e.1 = u) with
  | none => 0
  | some i => (i : Int) + 1

/-- `GetLeaderboardSize`: `ZCARD`. -/
def GetLeaderboardSize (z : ZSet) : Int := z.length

/-- Pair each element of a list with its (integer) index, starting at `i`. -/
def indexedFrom (i : Int) : List α → List (Int × α)
  | [] => []
  | x :: xs => (i, x) :: indexedFrom (i + 1) xs

/-- `GetTopRankings` (leaderboard_cache.go): range `[0, limit-1]` of the
ordered set, each entry carrying rank `index + 1`. -/
def GetTopRankings (z : ZSet) (limit : Int) (ord : SortOrder) : List RankingEntry :=
  (indexedFrom 0 (redisRange (ordered z ord) 0 (limit - 1))).map
    (fun p => ⟨p.2.1, p.2.2, p.1 + 1⟩)

/-- `GetRankingsAroundUser` (leaderboard_cache.go lines 159-208): resolve the
user's 1-based rank (error when absent), take the inclusive index range
`[rank - count/2 - 1, rank + count/2 - 1]` of the ordered set (start clamped
at 0 in the Go code, the top end clamped by redis), and re-rank from the
clamped start. -/
def GetRankingsAroundUser (z : ZSet) (u : String) (count : Int) (ord : SortOrder) :
    Except String (List RankingEntry) :=
  let userRank := GetRank z u ord
  if userRank = 0 then .error "user not in leaderboard"
  else
    let half := count.tdiv 2
    let start0 := userRank - half - 1
    let stop := userRank + half - 1
    let start := if start0 < 0 then 0 else start0
    let members := redisRange (ordered z ord) start stop
    .ok ((indexedFrom 0 members).map (fun p => ⟨p.2.1, p.2.2, start + p.1 + 1⟩))

/-- `BatchSetScores` (leaderboard_cache.go lines 295-324): a pipeline of
`ZADD`s, one per map entry.  Go map iteration order is unspecified; the model
fixes the list order handed to it (all call sites pass maps with distinct
keys, for which the resulting set is order-independent). -/
def BatchSetScores (z : ZSet) (scores : List (String × Int)) : ZSet :=
  scores.foldl (fun acc e => ZAdd acc e.1 e.2) z

/-- `ClearLeaderboard`: `DEL` of the leaderboard key. -/
def ClearLeaderboard (_z : ZSet) : ZSet := []

end Redis

namespace Mongo

/-- `GetUserScore` (mongodb.go lines 463-481): the record for `u` with the
greatest `submitted_at` (`FindOne` sorted by `submitted_at` descending), or
`none` when the user has no record.  Among records with equal timestamps the
one appended later wins, fixing the order Mongo leaves unspecified. -/
def GetUserScore (u : String) : List ScoreRecord → Option ScoreRecord
  | [] => none
  | r :: rs =>
    match GetUserScore u rs with
    | none => if r.userID = u then some r else none
    | some b =>
      if r.userID = u then
        if b.submittedAt < r.submittedAt then some r else some b
      else some b

/-- The distinct user ids appearing in the history (the `$group` keys of the
aggregation pipelines). -/
def historyUsers : List ScoreRecord → List String
  | [] => []
  | r :: rs =>
    if (historyUsers rs).contains r.userID then historyUsers rs
    else r.userID :: historyUsers rs

/-- Result of the latest-per-user collapse (`$sort` by user and descending
time, `$group` taking `$first`, `$replaceRoot`): one latest record per user. -/
def latestRecords (h : List ScoreRecord) : List ScoreRecord :=
  (historyUsers h).filterMap (fun u => GetUserScore u h)

/-- The comparison of the final `$sort` of `GetTopScores`: by score in the
requested direction, then by `submitted_at` descending.  The third component
(member id) is a modelling tiebreak making the sort a function; it is never
exercised by two distinct latest-per-user records with equal score and time
in any statement proved below with distinct timestamps. -/
def recBefore (ord : SortOrder) (a b : ScoreRecord) : Bool :=
  if a.score = b.score then
    if a.submittedAt = b.submittedAt then a.userID ≤ b.userID
    else decide (b.submittedAt < a.submittedAt)
  else
    match ord with
    | .desc => decide (b.score < a.score)
    | .asc => decide (a.score < b.score)

/-- Insert into a list sorted by `le`. -/
def insertSorted (le : ScoreRecord → ScoreRecord → Bool) (x : ScoreRecord) :
    List ScoreRecord → List ScoreRecord
  | [] => [x]
  | y :: ys => if le x y then x :: y :: ys else y :: insertSorted le x ys

/-- Insertion sort. -/
def sortRecs (le : ScoreRecord → ScoreRecord → Bool) : List ScoreRecord → List ScoreRecord
  | [] => []
  | x :: xs => insertSorted le x (sortRecs le xs)

/-- `GetTopScores` (mongodb.go lines 484-552): collapse the history to the
latest record per user, sort by score in the requested direction (ties by
most recent submission), and apply `$limit` only when `limit > 0`. -/
def GetTopScores (h : List ScoreRecord) (limit : Int) (ord : SortOrder) : List ScoreRecord :=
  let sorted := sortRecs (recBefore ord) (latestRecords h)
  if 0 < limit then sorted.take limit.toNat else sorted

/-- A BSON field value, as far as the rank pipeline inspects one. -/
inductive MVal where
  | mstr : String → MVal
  | mint : Int → MVal
deriving DecidableEq, Repr

/-- A BSON document: an association list field name → value.  A field absent
from the list is absent from the document. -/
abbrev MDoc := List (String × MVal)

/-- Field lookup. -/
def getField (d : MDoc) (k : String) : Option MVal :=
  (d.find? (fun e => e.1 = k)).map (fun e => e.2)

/-- The document produced for one user by the `$group` stage of
`GetUserRank`: `{_id: user_id, latest_score: score}`.  No other field of the
original records survives the grouping. -/
def groupDoc (r : ScoreRecord) : MDoc :=
  [("_id", .mstr r.userID), ("latest_score", .mint r.score)]

/-- MongoDB `$match` equality on one field: a document missing the field
never matches a non-null constant. -/
def matchEq (d : MDoc) (k : String) (v : MVal) : Bool :=
  getField d k = some v

/-- MongoDB `$match` with `$gt` on one field: a document missing the field
(or holding a non-numeric value) never matches. -/
def matchGtInt (d : MDoc) (k : String) (v : Int) : Bool :=
  match getField d k with
  | some (.mint n) => decide (v < n)
  | _ => false

/-- MongoDB `$match` with `$lt` on one field. -/
def matchLtInt (d : MDoc) (k : String) (v : Int) : Bool :=
  match getField d k with
  | some (.mint n) => decide (n < v)
  | _ => false

/-- The `matchCondition` built by `GetUserRank` (mongodb.go lines 567-576):
equality on `leaderboard_id` plus `$gt` (descending) or `$lt` (ascending)
on `score` against the user's latest score. -/
def rankMatchCondition (lid : String) (ord : SortOrder) (userScore : Int) (d : MDoc) : Bool :=
  matchEq d "leaderboard_id" (.mstr lid) &&
    (match ord with
     | .desc => matchGtInt d "score" userScore
     | .asc => matchLtInt d "score" userScore)

/-- `GetUserRank` (mongodb.go lines 555-623): fetch the user's latest record
(error when absent), then run the pipeline `$match` (leaderboard) → `$sort` →
`$group` (into `{_id, latest_score}` documents) → `$match matchCondition` →
`$count`, and return the count plus one.  An empty `$count` input emits no
document, leaving the decoded count at `0`. -/
def GetUserRank (lid : String) (ord : SortOrder) (h : List ScoreRecord) (u : String) :
    Except String Int :=
  match GetUserScore u h with
  | none => .error "user has no score record"
  | some rec =>
    let grouped := (latestRecords h).map groupDoc
    let cnt := (grouped.filter (rankMatchCondition lid ord rec.score)).length
    .ok (cnt + 1)

end Mongo

/-- Modelled from the spec, for comparison with `Mongo.GetUserRank`:
`rankOf(leaderboard, user, sortOrder)` counts, among latest-per-user records,
how many strictly outrank the user's latest score under the sort order
(strictly greater for descending, strictly less for ascending), plus one, and
errors when the user has no record. -/
def specRankOf (ord : SortOrder) (h : List ScoreRecord) (u : String) : Except String Int :=
  match Mongo.GetUserScore u h with
  | none => .error "user has no score record"
  | some rec =>
    let cnt := ((Mongo.latestRecords h).filter (fun r =>
      match ord with
      | .desc => decide (rec.score < r.score)
      | .asc => decide (r.score < rec.score))).length
    .ok (cnt + 1)

/-- Build a Go `map[string]int64` from assignments applied in order: a later
assignment to the same key overwrites the earlier one. -/
def mapUpsert (m : List (String × Int)) (k : String) (v : Int) : List (String × Int) :=
  if m.any (fun e => e.1 = k) then m.map (fun e => if e.1 = k then (k, v) else e)
  else m ++ [(k, v)]

/-- The map built by `for _, r := range l { m[key r] = val r }`. -/
def mapOfPairs (l : List (String × Int)) : List (String × Int) :=
  l.foldl (fun m e => mapUpsert m e.1 e.2) []

/-- The state the orchestrator acts on: the durable history, the leaderboard
sorted set, the rebuild lock, and a logical clock stamping new records. -/
structure SysState where
  history : List ScoreRecord
  cache : Redis.ZSet
  lock : Bool
  now : Nat
deriving DecidableEq, Repr

namespace Service

/-- `SubmitScore` (leaderboard_service.go lines 213-289): resolve previous
score and rank (the cache rank is read only when a durable record exists),
append the record (`appendFails` injects the durable-write failure, which
aborts with the state untouched), write through to the cache, read the new
rank from the cache, and compute the rank delta only when both ranks are
positive. -/
def SubmitScore (ord : SortOrder) (appendFails : Bool) (st : SysState) (u : String)
    (score : Int) : Except String SubmitScoreResponse × SysState :=
  let previous := Mongo.GetUserScore u st.history
  let previousScore := match previous with
    | some r => r.score
    | none => 0
  let previousRank := match previous with
    | some _ => Redis.GetRank st.cache u ord
    | none => 0
  if appendFails then (.error "failed to save score record", st)
  else
    let st1 : SysState :=
      { st with history := st.history ++ [⟨u, score, st.now⟩], now := st.now + 1 }
    let st2 : SysState := { st1 with cache := Redis.ZAdd st1.cache u score }
    let newRank := Redis.GetRank st2.cache u ord
    let rankChange := if 0 < previousRank ∧ 0 < newRank then previousRank - newRank else 0
    (.ok ⟨u, score, previousScore, newRank, previousRank, rankChange⟩, st2)

/-- The loop body of `BatchSubmitScores`: entries are processed in order,
each through `SubmitScore`; a failing entry increments `failureCount` and is
skipped, a successful one increments `successCount`.  `fails i` says whether
the durable append of the `i`-th entry fails. -/
def batchLoop (ord : SortOrder) (fails : Nat → Bool) :
    List (String × Int) → Nat → SysState → BatchSubmitScoreResponse →
    BatchSubmitScoreResponse × SysState
  | [], _, st, acc => (acc, st)
  | (u, s) :: rest, i, st, acc =>
    match SubmitScore ord (fails i) st u s with
    | (.error e, st') =>
      batchLoop ord fails rest (i + 1) st'
        { acc with
          failureCount := acc.failureCount + 1
          errors := acc.errors ++ ["user " ++ u ++ ": " ++ e] }
    | (.ok r, st') =>
      batchLoop ord fails rest (i + 1) st'
        { acc with
          successCount := acc.successCount + 1
          results := acc.results ++ [r] }

/-- `BatchSubmitScores` (leaderboard_service.go lines 292-321). -/
def BatchSubmitScores (ord : SortOrder) (fails : Nat → Bool) (st : SysState)
    (entries : List (String × Int)) : BatchSubmitScoreResponse × SysState :=
  batchLoop ord fails entries 0 st ⟨0, 0, [], []⟩

/-- The conversion loop of `GetRankings` (leaderboard_service.go lines
346-364): walk the fetched records with their index `i`, skip while
`i < offset`, give each kept record rank `i + 1`, and break once `limit`
entries are collected (checked after appending). -/
def collectRankings (limit offset : Int) : List ScoreRecord → Int → Int → List RankingEntry
  | [], _, _ => []
  | r :: rs, i, cnt =>
    if i < offset then collectRankings limit offset rs (i + 1) cnt
    else
      let e : RankingEntry := ⟨r.userID, r.score, i + 1⟩
      if limit ≤ cnt + 1 then [e]
      else e :: collectRankings limit offset rs (i + 1) (cnt + 1)

/-- `GetRankings` (leaderboard_service.go lines 324-377): with `offset = 0`
a non-empty cache answer is returned as is; otherwise the store's
`GetTopScores` is queried for `limit + offset` latest-per-user records, the
first `offset` are skipped, and (for `offset = 0`) the result warms the
cache. -/
def GetRankings (ord : SortOrder) (st : SysState) (limit offset : Int) :
    List RankingEntry × SysState :=
  let dbPath : List RankingEntry × SysState :=
    let records := Mongo.GetTopScores st.history (limit + offset) ord
    let rankings := collectRankings limit offset records 0 0
    let st' :=
      if offset = 0 ∧ 0 < rankings.length then
        { st with
          cache := Redis.BatchSetScores st.cache
            (mapOfPairs (rankings.map (fun e => (e.userID, e.score)))) }
      else st
    (rankings, st')
  if offset = 0 then
    let cached := Redis.GetTopRankings st.cache limit ord
    if 0 < cached.length then (cached, st) else dbPath
  else dbPath

/-- `GetUserRank` (leaderboard_service.go lines 381-425): a cached score of
`0` (also what the cache reports for an absent user) falls back to the
durable store, erroring when the user has no record; a cached rank of `0`
falls back to the store's rank pipeline; the user count is the cache
cardinality. -/
def GetUserRank (lid : String) (ord : SortOrder) (st : SysState) (u : String) :
    Except String UserRankResponse :=
  let cachedScore := Redis.GetScore st.cache u
  let scoreRes : Except String Int :=
    if cachedScore = 0 then
      match Mongo.GetUserScore u st.history with
      | none => .error "user has no score record"
      | some r => .ok r.score
    else .ok cachedScore
  match scoreRes with
  | .error e => .error e
  | .ok score =>
    let cachedRank := Redis.GetRank st.cache u ord
    let rankRes :=
      if cachedRank = 0 then Mongo.GetUserRank lid ord st.history u else .ok cachedRank
    match rankRes with
    | .error e => .error e
    | .ok rank => .ok ⟨u, score, rank, Redis.GetLeaderboardSize st.cache⟩

/-- `GetRankingsAroundUser` (leaderboard_service.go lines 428-442): the
service delegates to the cache. -/
def GetRankingsAroundUser (ord : SortOrder) (st : SysState) (u : String) (count : Int) :
    Except String (List RankingEntry) :=
  Redis.GetRankingsAroundUser st.cache u count ord

/-- `RebuildLeaderboard` (leaderboard_service.go lines 445-493): single
attempt on the rebuild lock (denied when held), clear the leaderboard key,
fetch the top `maxEntries` latest-per-user records, collapse them to a
user → score map, batch-set it when non-empty, and release the lock on every
exit path. -/
def RebuildLeaderboard (ord : SortOrder) (maxEntries : Int) (st : SysState) :
    Except String Nat × SysState :=
  if st.lock then (.error "rebuild already in progress", st)
  else
    let cleared := Redis.ClearLeaderboard st.cache
    let records := Mongo.GetTopScores st.history maxEntries ord
    let scores := mapOfPairs (records.map (fun r => (r.userID, r.score)))
    let cache := if 0 < scores.length then Redis.BatchSetScores cleared scores else cleared
    (.ok records.length, { st with cache := cache, lock := false })

end Service

namespace Handler

/-- The per-entry validation loop of `BatchSubmit` (leaderboard_handler.go
lines 428-444): the first entry with a negative score or an empty user id
(score checked first) aborts the whole request with a 400 message naming the
1-based entry position. -/
def firstInvalid : List (String × Int) → Nat → Option String
  | [], _ => none
  | (u, s) :: rest, i =>
    if s < 0 then some ("entry " ++ toString (i + 1) ++ ": score must not be negative")
    else if u = "" then some ("entry " ++ toString (i + 1) ++ ": user id must not be empty")
    else firstInvalid rest (i + 1)

/-- Outcome of the batch endpoint: a 400 validation rejection issued before
the service is invoked, or the service response with the HTTP status chosen
from the success/failure counts. -/
inductive BatchOutcome where
  | rejected : String → BatchOutcome
  | completed : BatchSubmitScoreResponse → Int → BatchOutcome
deriving DecidableEq, Repr

/-- `BatchSubmit` (leaderboard_handler.go lines 400-471): reject empty or
oversized batches, then reject the whole batch on the first invalid entry;
only a fully valid batch reaches `Service.BatchSubmitScores`.  Status 206 is
used for partial failure, 400 when nothing succeeded. -/
def BatchSubmit (ord : SortOrder) (fails : Nat → Bool) (st : SysState)
    (entries : List (String × Int)) : BatchOutcome × SysState :=
  if entries.length = 0 then (.rejected "score list must not be empty", st)
  else if 1000 < entries.length then (.rejected "batch must not exceed 1000 entries", st)
  else
    match firstInvalid entries 0 with
    | some msg => (.rejected msg, st)
    | none =>
      let res := Service.BatchSubmitScores ord fails st entries
      let status : Int :=
        if 0 < res.1.failureCount then (if res.1.successCount = 0 then 400 else 206) else 200
      (.completed res.1 status, res.2)

end Handler

/-! ### Concrete states used in witnesses and counterexamples -/

/-- A history with two users, `u1` at 100 and `u2` at 200. -/
def histTwo : List ScoreRecord := [⟨"u1", 100, 0⟩, ⟨"u2", 200, 1⟩]

/-- System state over `histTwo` with a cold cache and a free lock. -/
def stTwo : SysState := ⟨histTwo, [], false, 2⟩

/-- A cache with five users at scores 10, 20, 30, 40, 50. -/
def zFive : Redis.ZSet :=
  Redis.ZAdd (Redis.ZAdd (Redis.ZAdd (Redis.ZAdd
    (Redis.ZAdd Redis.zempty "u1" 10) "u2" 20) "u3" 30) "u4" 40) "u5" 50

/-- A state whose cache holds user `u` (score 5, rank 1) while the durable
history holds no record at all — the shape reached when score records expire
from the store (30-day TTL index) while the cache entry is still alive. -/
def stCachedOnly : SysState := ⟨[], Redis.ZAdd Redis.zempty "u" 5, false, 0⟩

/-- Batch input whose second entry carries a negative score. -/
def entriesBadTwo : List (String × Int) := [("u1", 100), ("u2", -5), ("u3", 200)]

/-- The empty system state. -/
def stEmpty : SysState := ⟨[], [], false, 0⟩

/-- A state with one durable record for `u` and a cold cache. -/
def stHistOnly : SysState := ⟨[⟨"u", 42, 0⟩], [], false, 1⟩

/-! ### Sorted-set lemmas -/

theorem zlookup_zinsert (l : Redis.ZSet) (e : String × Int) (u : String)
    (h : ∀ x ∈ l, x.1 ≠ e.1) :
    Redis.zlookup (Redis.zinsert e l) u =
      if u = e.1 then some e.2 else Redis.zlookup l u := by
  induction l with
  | nil =>
    by_cases hu : u = e.1 <;> simp [Redis.zinsert, Redis.zlookup, hu, eq_comm]
  | cons x xs ih =>
    have hx : x.1 ≠ e.1 := h x (by simp)
    have hxs : ∀ y ∈ xs, y.1 ≠ e.1 := fun y hy => h y (by simp [hy])
    by_cases hb : Redis.zbefore e x
    · by_cases hu : u = e.1 <;> simp [Redis.zinsert, hb, Redis.zlookup, hu, eq_comm]
    · by_cases hxu : x.1 = u
      · have hne : ¬ u = e.1 := fun hh => hx (by rw [hxu, hh])
        simp [Redis.zinsert, hb, Redis.zlookup, hxu, hne]
      · simp [Redis.zinsert, hb, Redis.zlookup, hxu, ih hxs]

theorem zlookup_filter_ne (l : Redis.ZSet) (u v : String) :
    Redis.zlookup (l.filter (fun e => ¬ e.1 = u)) v =
      if v = u then none else Redis.zlookup l v := by
  induction l with
  | nil => simp [Redis.zlookup]
  | cons x xs ih =>
    by_cases hx : x.1 = u
    · rw [List.filter_cons_of_neg (by simp [hx]), ih]
      by_cases hv : v = u
      · simp [hv]
      · have hxv : ¬ x.1 = v := fun hh => hv (by rw [← hh, hx])
        simp [hv, Redis.zlookup, hxv]
    · rw [List.filter_cons_of_pos (by simp [hx])]
      by_cases hxv : x.1 = v
      · have hv : ¬ v = u := fun hh => hx (hxv.trans hh)
        simp [Redis.zlookup, hxv, hv]
      · simp only [Redis.zlookup, if_neg hxv]
        exact ih

theorem keys_filter_ne (l : Redis.ZSet) (u : String) :
    ∀ x ∈ l.filter (fun e => ¬ e.1 = u), x.1 ≠ u := by
  intro x hx
  have := List.of_mem_filter hx
  simpa using this

theorem zlookup_ZAdd (z : Redis.ZSet) (u : String) (s : Int) (v : String) :
    Redis.zlookup (Redis.ZAdd z u s) v =
      if v = u then some (f64round s) else Redis.zlookup z v := by
  unfold Redis.ZAdd
  rw [zlookup_zinsert _ _ _ (keys_filter_ne z u), zlookup_filter_ne]
  by_cases hv : v = u <;> simp [hv]

theorem GetScore_ZAdd_self (z : Redis.ZSet) (u : String) (s : Int) :
    Redis.GetScore (Redis.ZAdd z u s) u = f64round s := by
  simp [Redis.GetScore, zlookup_ZAdd]

theorem zlookup_BatchSetScores_not_mem (z : Redis.ZSet) (l : List (String × Int)) (u : String)
    (h : ∀ x ∈ l, x.1 ≠ u) :
    Redis.zlookup (Redis.BatchSetScores z l) u = Redis.zlookup z u := by
  induction l generalizing z with
  | nil => rfl
  | cons e t ih =>
    have he : e.1 ≠ u := h e (by simp)
    have ht : ∀ x ∈ t, x.1 ≠ u := fun x hx => h x (by simp [hx])
    simp only [Redis.BatchSetScores, List.foldl_cons]
    rw [show (List.foldl (fun acc e => Redis.ZAdd acc e.1 e.2) (Redis.ZAdd z e.1 e.2) t) =
      Redis.BatchSetScores (Redis.ZAdd z e.1 e.2) t from rfl]
    have hne : ¬ u = e.1 := fun hh => he hh.symm
    rw [ih _ ht, zlookup_ZAdd, if_neg hne]

theorem zlookup_BatchSetScores_mem (z : Redis.ZSet) (l : List (String × Int)) (k : String)
    (v : Int) (hnd : (l.map Prod.fst).Nodup) (hmem : (k, v) ∈ l) :
    Redis.zlookup (Redis.BatchSetScores z l) k = some (f64round v) := by
  induction l generalizing z with
  | nil => cases hmem
  | cons e t ih =>
    simp only [List.map_cons, List.nodup_cons] at hnd
    simp only [Redis.BatchSetScores, List.foldl_cons]
    rw [show (List.foldl (fun acc e => Redis.ZAdd acc e.1 e.2) (Redis.ZAdd z e.1 e.2) t) =
      Redis.BatchSetScores (Redis.ZAdd z e.1 e.2) t from rfl]
    rcases List.mem_cons.mp hmem with he | ht
    · have hk : e.1 = k := by rw [← he]
      have hnotin : ∀ x ∈ t, x.1 ≠ k := by
        intro x hx hxk
        exact hnd.1 (hk ▸ hxk ▸ List.mem_map.mpr ⟨x, hx, rfl⟩)
      rw [zlookup_BatchSetScores_not_mem _ _ _ hnotin, zlookup_ZAdd]
      rw [← he]
      simp
    · exact ih _ hnd.2 ht

theorem foldl_mapUpsert_of_nodup (l : List (String × Int)) :
    ∀ m : List (String × Int), (∀ x ∈ l, ∀ y ∈ m, x.1 ≠ y.1) →
      (l.map Prod.fst).Nodup →
      l.foldl (fun acc e => mapUpsert acc e.1 e.2) m = m ++ l := by
  induction l with
  | nil => intro m _ _; simp
  | cons e t ih =>
    intro m hm hnd
    simp only [List.map_cons, List.nodup_cons] at hnd
    have hany : ¬ m.any (fun x => x.1 = e.1) := by
      simp only [List.any_eq_true, not_exists]
      intro x hh
      rcases hh with ⟨hx, hxe⟩
      exact hm e (by simp) x hx (by simpa [eq_comm] using hxe)
    have hstep : mapUpsert m e.1 e.2 = m ++ [e] := by
      simp [mapUpsert, hany]
    simp only [List.foldl_cons, hstep]
    rw [ih (m ++ [e]) ?_ hnd.2]
    · simp
    · intro x hx y hy
      rcases List.mem_append.mp hy with hym | hye
      · exact hm x (by simp [hx]) y hym
      · have : y = e := by simpa using hye
        subst this
        intro hxy
        exact hnd.1 (hxy ▸ List.mem_map.mpr ⟨x, hx, rfl⟩)

theorem mapOfPairs_of_nodup (l : List (String × Int)) (hnd : (l.map Prod.fst).Nodup) :
    mapOfPairs l = l := by
  have := foldl_mapUpsert_of_nodup l [] (by simp) hnd
  simpa [mapOfPairs] using this

/-! ### Claim theorems: float64 precision, write-path failure, previous state,
rebuild idempotence -/

/-- C10: the cache stores scores as float64 values: every int64 score of
magnitude at most `2 ^ 53` survives `SetScore` followed by `GetScore`
exactly, and there is a valid int64 score of larger magnitude (`2 ^ 53 + 1`)
that comes back changed. -/
theorem C10_float64_cache_precision :
    (∀ (z : Redis.ZSet) (u : String) (s : Int), s.natAbs ≤ 2 ^ 53 →
      Redis.GetScore (Redis.ZAdd z u s) u = s) ∧
    (∃ s : Int, s.natAbs ≤ 2 ^ 63 - 1 ∧
      ∀ (z : Redis.ZSet) (u : String), Redis.GetScore (Redis.ZAdd z u s) u ≠ s) := by
  constructor
  · intro z u s hs
    rw [GetScore_ZAdd_self, f64round_eq_of_natAbs_le s hs]
  · refine ⟨2 ^ 53 + 1, by decide, ?_⟩
    intro z u
    rw [GetScore_ZAdd_self]
    decide

/-- C10 witness: a concrete exact round-trip through the cache. -/
theorem C10_witness :
    Redis.GetScore (Redis.ZAdd Redis.zempty "user1" 5) "user1" = 5 :=
  C10_float64_cache_precision.1 Redis.zempty "user1" 5 (by decide)

/-- C6: when appending the score record to the durable store fails,
`SubmitScore` returns an error and the whole state — in particular every
cached score and every cached rank — is exactly as before the call. -/
theorem C6_append_failure_no_cache_mutation :
    ∀ (ord : SortOrder) (st : SysState) (u : String) (s : Int),
      (Service.SubmitScore ord true st u s).1 = .error "failed to save score record" ∧
      (Service.SubmitScore ord true st u s).2 = st ∧
      (∀ v, Redis.GetScore (Service.SubmitScore ord true st u s).2.cache v =
        Redis.GetScore st.cache v) ∧
      (∀ v o, Redis.GetRank (Service.SubmitScore ord true st u s).2.cache v o =
        Redis.GetRank st.cache v o) :=
  fun _ _ _ _ => ⟨rfl, rfl, fun _ => rfl, fun _ _ => rfl⟩

/-- C5 (amended): `SubmitScore` resolves the previous state in one coupled
step: when the user has a latest durable record, `previousScore` is its score
and `previousRank` is the cache rank; when no durable record exists, both are
0 — the cache rank is not consulted in that case, even when the user has a
cached rank. -/
theorem C5_previous_state_resolution :
    ∀ (ord : SortOrder) (st : SysState) (u : String) (s : Int),
      ∃ r, (Service.SubmitScore ord false st u s).1 = .ok r ∧
        r.previousScore = (match Mongo.GetUserScore u st.history with
          | some b => b.score
          | none => 0) ∧
        r.previousRank = (match Mongo.GetUserScore u st.history with
          | some _ => Redis.GetRank st.cache u ord
          | none => 0) :=
  fun _ _ _ _ => ⟨_, rfl, rfl, rfl⟩

/-- C5 counterexample: in a state where user `u` has cache rank 1 but no
durable record, `SubmitScore` reports `previousRank = 0`, not the cached
rank. -/
theorem C5_counterexample :
    Redis.GetRank stCachedOnly.cache "u" .desc = 1 ∧
    (Service.SubmitScore .desc false stCachedOnly "u" 7).1 =
      .ok ⟨"u", 7, 0, 1, 0, 0⟩ :=
  ⟨rfl, rfl⟩

/-- C7: running `RebuildLeaderboard` twice with no submissions in between
succeeds both times with the same report and leaves the cache in an identical
state: same sorted set, hence the same score and the same rank for every
user. -/
theorem C7_rebuild_idempotent (ord : SortOrder) (maxEntries : Int) (st : SysState)
    (h : st.lock = false) :
    (Service.RebuildLeaderboard ord maxEntries st).1 =
      .ok (Mongo.GetTopScores st.history maxEntries ord).length ∧
    (Service.RebuildLeaderboard ord maxEntries
        (Service.RebuildLeaderboard ord maxEntries st).2).1 =
      (Service.RebuildLeaderboard ord maxEntries st).1 ∧
    (Service.RebuildLeaderboard ord maxEntries
        (Service.RebuildLeaderboard ord maxEntries st).2).2.cache =
      (Service.RebuildLeaderboard ord maxEntries st).2.cache ∧
    (∀ u, Redis.GetScore (Service.RebuildLeaderboard ord maxEntries
        (Service.RebuildLeaderboard ord maxEntries st).2).2.cache u =
      Redis.GetScore (Service.RebuildLeaderboard ord maxEntries st).2.cache u) ∧
    (∀ u o, Redis.GetRank (Service.RebuildLeaderboard ord maxEntries
        (Service.RebuildLeaderboard ord maxEntries st).2).2.cache u o =
      Redis.GetRank (Service.RebuildLeaderboard ord maxEntries st).2.cache u o) := by
  have hcache : (Service.RebuildLeaderboard ord maxEntries
      (Service.RebuildLeaderboard ord maxEntries st).2).2.cache =
      (Service.RebuildLeaderboard ord maxEntries st).2.cache := by
    simp [Service.RebuildLeaderboard, h, Redis.ClearLeaderboard]
  refine ⟨by simp [Service.RebuildLeaderboard, h],
    by simp [Service.RebuildLeaderboard, h, Redis.ClearLeaderboard],
    hcache, fun u => by rw [hcache], fun u o => by rw [hcache]⟩

/-- C7 witness: rebuild idempotence on the concrete two-user state. -/
theorem C7_witness :
    stTwo.lock = false ∧
    (Service.RebuildLeaderboard .desc 10
        (Service.RebuildLeaderboard .desc 10 stTwo).2).2.cache =
      (Service.RebuildLeaderboard .desc 10 stTwo).2.cache :=
  ⟨rfl, (C7_rebuild_idempotent .desc 10 stTwo rfl).2.2.1⟩

/-! ### History-store lemmas -/

theorem getUserScore_userID (u : String) (h : List ScoreRecord) (r : ScoreRecord)
    (hr : Mongo.GetUserScore u h = some r) : r.userID = u := by
  induction h with
  | nil => cases hr
  | cons x xs ih =>
    cases hx : Mongo.GetUserScore u xs with
    | none =>
      simp only [Mongo.GetUserScore, hx] at hr
      by_cases hxu : x.userID = u
      · rw [if_pos hxu] at hr
        cases hr
        exact hxu
      · rw [if_neg hxu] at hr
        cases hr
    | some b =>
      simp only [Mongo.GetUserScore, hx] at hr
      by_cases hxu : x.userID = u
      · rw [if_pos hxu] at hr
        by_cases hts : b.submittedAt < x.submittedAt
        · rw [if_pos hts] at hr
          cases hr
          exact hxu
        · rw [if_neg hts] at hr
          cases hr
          exact ih hx
      · rw [if_neg hxu] at hr
        cases hr
        exact ih hx

theorem getUserScore_of_mem_latestRecords (h : List ScoreRecord) (r : ScoreRecord)
    (hr : r ∈ Mongo.latestRecords h) : Mongo.GetUserScore r.userID h = some r := by
  simp only [Mongo.latestRecords, List.mem_filterMap] at hr
  obtain ⟨u, _, hgu⟩ := hr
  rwa [getUserScore_userID u h r hgu]

theorem historyUsers_nodup (h : List ScoreRecord) : (Mongo.historyUsers h).Nodup := by
  induction h with
  | nil => exact List.nodup_nil
  | cons r rs ih =>
    by_cases hc : (Mongo.historyUsers rs).contains r.userID
    · have hmem : r.userID ∈ Mongo.historyUsers rs := by simpa using hc
      simpa [Mongo.historyUsers, hmem] using ih
    · have hnot : r.userID ∉ Mongo.historyUsers rs := by
        intro hmem
        exact hc (by simpa using hmem)
      simp [Mongo.historyUsers, List.nodup_cons, hnot, ih]

theorem nodup_userIDs_filterMap (h : List ScoreRecord) :
    ∀ us : List String, us.Nodup →
      ((us.filterMap (fun u => Mongo.GetUserScore u h)).map (fun r => r.userID)).Nodup := by
  intro us
  induction us with
  | nil => intro _; simp
  | cons u t ih =>
    intro hnd
    rw [List.nodup_cons] at hnd
    cases hg : Mongo.GetUserScore u h with
    | none => simpa [List.filterMap_cons, hg] using ih hnd.2
    | some r =>
      simp only [List.filterMap_cons, hg, List.map_cons, List.nodup_cons]
      refine ⟨?_, ih hnd.2⟩
      intro hmem
      rw [List.mem_map] at hmem
      obtain ⟨r2, hr2, hid⟩ := hmem
      rw [List.mem_filterMap] at hr2
      obtain ⟨u2, hu2, hgu2⟩ := hr2
      have h1 := getUserScore_userID u h r hg
      have h2 := getUserScore_userID u2 h r2 hgu2
      apply hnd.1
      rw [← h1, ← hid, h2]
      exact hu2

theorem nodup_userIDs_latestRecords (h : List ScoreRecord) :
    ((Mongo.latestRecords h).map (fun r => r.userID)).Nodup :=
  nodup_userIDs_filterMap h _ (historyUsers_nodup h)

theorem insertSorted_perm (le : ScoreRecord → ScoreRecord → Bool) (x : ScoreRecord) :
    ∀ l, (Mongo.insertSorted le x l).Perm (x :: l)
  | [] => List.Perm.refl _
  | y :: ys => by
    by_cases hb : le x y
    · simp only [Mongo.insertSorted, if_pos hb]
      exact List.Perm.refl _
    · simp only [Mongo.insertSorted, if_neg hb]
      exact ((insertSorted_perm le x ys).cons y).trans (List.Perm.swap x y ys)

theorem sortRecs_perm (le : ScoreRecord → ScoreRecord → Bool) :
    ∀ l, (Mongo.sortRecs le l).Perm l
  | [] => List.Perm.refl _
  | x :: xs =>
    (insertSorted_perm le x (Mongo.sortRecs le xs)).trans ((sortRecs_perm le xs).cons x)

theorem getUserScore_of_mem_GetTopScores (h : List ScoreRecord) (limit : Int)
    (ord : SortOrder) (r : ScoreRecord) (hr : r ∈ Mongo.GetTopScores h limit ord) :
    Mongo.GetUserScore r.userID h = some r := by
  apply getUserScore_of_mem_latestRecords
  have hs : r ∈ Mongo.sortRecs (Mongo.recBefore ord) (Mongo.latestRecords h) := by
    simp only [Mongo.GetTopScores] at hr
    by_cases hl : 0 < limit
    · rw [if_pos hl] at hr
      exact List.mem_of_mem_take hr
    · rwa [if_neg hl] at hr
  exact (sortRecs_perm _ _).mem_iff.mp hs

theorem nodup_userIDs_GetTopScores (h : List ScoreRecord) (limit : Int) (ord : SortOrder) :
    ((Mongo.GetTopScores h limit ord).map (fun r => r.userID)).Nodup := by
  have hp : ((Mongo.sortRecs (Mongo.recBefore ord) (Mongo.latestRecords h)).map
      (fun r => r.userID)).Nodup :=
    ((sortRecs_perm (Mongo.recBefore ord) (Mongo.latestRecords h)).map
      (fun r => r.userID)).nodup_iff.mpr (nodup_userIDs_latestRecords h)
  simp only [Mongo.GetTopScores]
  by_cases hl : 0 < limit
  · rw [if_pos hl]
    exact List.Nodup.sublist ((List.take_sublist _ _).map _) hp
  · rwa [if_neg hl]

/-! ### Claim theorems: rebuild/history agreement, store rank pipeline -/

/-- C2 (amended): after a successful rebuild, every user whose latest record
made it into the top `maxEntries` latest-per-user records (and whose score is
float64-exact, magnitude at most `2 ^ 53`) has exactly their latest durable
score in the cache; users ranked beyond `maxEntries` are dropped. -/
theorem C2_rebuild_matches_latest (ord : SortOrder) (maxEntries : Int) (st : SysState)
    (r : ScoreRecord) (hlock : st.lock = false)
    (hmem : r ∈ Mongo.GetTopScores st.history maxEntries ord)
    (hbound : r.score.natAbs ≤ 2 ^ 53) :
    Mongo.GetUserScore r.userID st.history = some r ∧
    Redis.GetScore (Service.RebuildLeaderboard ord maxEntries st).2.cache r.userID =
      r.score := by
  refine ⟨getUserScore_of_mem_GetTopScores _ _ _ _ hmem, ?_⟩
  have hnd : ((Mongo.GetTopScores st.history maxEntries ord).map
      (fun x => x.userID)).Nodup := nodup_userIDs_GetTopScores _ _ _
  have hkeys : (((Mongo.GetTopScores st.history maxEntries ord).map
      (fun x => (x.userID, x.score))).map Prod.fst).Nodup := by
    simpa [List.map_map, Function.comp] using hnd
  have hpairs : mapOfPairs ((Mongo.GetTopScores st.history maxEntries ord).map
      (fun x => (x.userID, x.score))) =
      (Mongo.GetTopScores st.history maxEntries ord).map (fun x => (x.userID, x.score)) :=
    mapOfPairs_of_nodup _ hkeys
  have hmem2 : (r.userID, r.score) ∈ (Mongo.GetTopScores st.history maxEntries ord).map
      (fun x => (x.userID, x.score)) := List.mem_map.mpr ⟨r, hmem, rfl⟩
  have hlen : 0 < (mapOfPairs ((Mongo.GetTopScores st.history maxEntries ord).map
      (fun x => (x.userID, x.score)))).length := by
    rw [hpairs]
    exact List.length_pos_of_mem hmem2
  have hcache : (Service.RebuildLeaderboard ord maxEntries st).2.cache =
      Redis.BatchSetScores []
        (mapOfPairs ((Mongo.GetTopScores st.history maxEntries ord).map
          (fun x => (x.userID, x.score)))) := by
    simp [Service.RebuildLeaderboard, hlock, Redis.ClearLeaderboard, hlen]
  rw [hcache, hpairs]
  have hl := zlookup_BatchSetScores_mem [] _ r.userID r.score hkeys hmem2
  simp [Redis.GetScore, hl, f64round_eq_of_natAbs_le _ hbound]

/-- C2 counterexample: with `maxEntries = 1` over a two-user history,
rebuild completes successfully yet user `u1` — who has a durable record with
latest score 100 — is absent from the rebuilt cache (`GetScore` reports 0),
so the claim's unconditional "every user with a record" fails. -/
theorem C2_counterexample :
    (Service.RebuildLeaderboard .desc 1 stTwo).1 = .ok 1 ∧
    Mongo.GetUserScore "u1" stTwo.history = some ⟨"u1", 100, 0⟩ ∧
    Redis.zlookup (Service.RebuildLeaderboard .desc 1 stTwo).2.cache "u1" = none ∧
    Redis.GetScore (Service.RebuildLeaderboard .desc 1 stTwo).2.cache "u1" = 0 :=
  ⟨rfl, rfl, rfl, rfl⟩

/-- C2 witness: with `maxEntries = 10` both users fit, and the rebuilt cache
agrees with `u1`'s latest record. -/
theorem C2_witness :
    stTwo.lock = false ∧
    (⟨"u1", 100, 0⟩ : ScoreRecord) ∈ Mongo.GetTopScores stTwo.history 10 .desc ∧
    Redis.GetScore (Service.RebuildLeaderboard .desc 10 stTwo).2.cache "u1" = 100 :=
  ⟨rfl, by decide,
    (C2_rebuild_matches_latest .desc 10 stTwo ⟨"u1", 100, 0⟩ rfl (by decide) (by decide)).2⟩

theorem rankMatchCondition_groupDoc (lid : String) (ord : SortOrder) (s : Int)
    (r : ScoreRecord) :
    Mongo.rankMatchCondition lid ord s (Mongo.groupDoc r) = false := rfl

theorem mongo_GetUserRank_shape (lid : String) (ord : SortOrder) (h : List ScoreRecord)
    (u : String) :
    Mongo.GetUserRank lid ord h u =
      (match Mongo.GetUserScore u h with
       | none => .error "user has no score record"
       | some _ => .ok 1) := by
  unfold Mongo.GetUserRank
  cases hg : Mongo.GetUserScore u h with
  | none => rfl
  | some rec =>
    have hfilter : ((Mongo.latestRecords h).map Mongo.groupDoc).filter
        (Mongo.rankMatchCondition lid ord rec.score) = [] := by
      rw [List.filter_eq_nil_iff]
      intro a ha
      rw [List.mem_map] at ha
      obtain ⟨r, _, rfl⟩ := ha
      simp [rankMatchCondition_groupDoc]
    simp [hfilter]

/-- C1: the store's rank pipeline does not compute the claimed count.  Its
post-`$group` `$match` tests the fields `leaderboard_id` and `score`, which
the `$group` stage (producing only `_id` and `latest_score`) has removed, so
the count is always 0 and every user with a record is reported at rank 1;
only the no-record error case behaves as claimed.  Concretely, on the
two-user history the code answers rank 1 for `u1` where the claimed
count-plus-one rank is 2. -/
theorem C1_mongo_rank_constant_one :
    (∀ (lid : String) (ord : SortOrder) (h : List ScoreRecord) (u : String),
      Mongo.GetUserRank lid ord h u =
        (match Mongo.GetUserScore u h with
         | none => .error "user has no score record"
         | some _ => .ok 1)) ∧
    Mongo.GetUserRank "L" .desc histTwo "u1" = .ok 1 ∧
    specRankOf .desc histTwo "u1" = .ok 2 :=
  ⟨mongo_GetUserRank_shape, rfl, rfl⟩

/-! ### Claim theorems: zero-score cache miss, batch validation -/

/-- C9: a user absent from the cache is reported by the cache's `GetScore`
as score 0 with no error — indistinguishable from a stored score of exactly
0 — and consequently the service's `GetUserRank` treats a cached score of 0
as a miss: it reads the user's score from the durable store, erroring only
when no record exists there. -/
theorem C9_zero_score_cache_miss :
    (∀ (z : Redis.ZSet) (u : String), Redis.zlookup z u = none →
      Redis.GetScore z u = 0 ∧
      Redis.GetScore z u = Redis.GetScore (Redis.ZAdd z u 0) u) ∧
    (∀ (lid : String) (ord : SortOrder) (st : SysState) (u : String) (r : ScoreRecord),
      Redis.GetScore st.cache u = 0 → Mongo.GetUserScore u st.history = some r →
      ∃ resp, Service.GetUserRank lid ord st u = .ok resp ∧ resp.score = r.score) ∧
    (∀ (lid : String) (ord : SortOrder) (st : SysState) (u : String),
      Redis.GetScore st.cache u = 0 → Mongo.GetUserScore u st.history = none →
      Service.GetUserRank lid ord st u = .error "user has no score record") := by
  refine ⟨?_, ?_, ?_⟩
  · intro z u hz
    refine ⟨by simp [Redis.GetScore, hz], ?_⟩
    rw [GetScore_ZAdd_self]
    simp [Redis.GetScore, hz]
    rfl
  · intro lid ord st u r hc hg
    by_cases hr : Redis.GetRank st.cache u ord = 0
    · refine ⟨⟨u, r.score, 1, Redis.GetLeaderboardSize st.cache⟩, ?_, rfl⟩
      simp [Service.GetUserRank, hc, hg, hr, mongo_GetUserRank_shape]
    · refine ⟨⟨u, r.score, Redis.GetRank st.cache u ord,
        Redis.GetLeaderboardSize st.cache⟩, ?_, rfl⟩
      simp [Service.GetUserRank, hc, hg, hr]
  · intro lid ord st u hc hg
    simp [Service.GetUserRank, hc, hg]

/-- C9 witness: with one durable record and a cold cache, `GetUserRank`
falls back to the durable score 42. -/
theorem C9_witness :
    Redis.GetScore stHistOnly.cache "u" = 0 ∧
    Mongo.GetUserScore "u" stHistOnly.history = some ⟨"u", 42, 0⟩ ∧
    ∃ resp, Service.GetUserRank "L" .desc stHistOnly "u" = .ok resp ∧ resp.score = 42 :=
  ⟨rfl, rfl, C9_zero_score_cache_miss.2.1 "L" .desc stHistOnly "u" ⟨"u", 42, 0⟩ rfl rfl⟩

theorem submitScore_false_isOk (ord : SortOrder) (st : SysState) (u : String) (s : Int) :
    ∃ r st2, Service.SubmitScore ord false st u s = (.ok r, st2) :=
  ⟨_, _, rfl⟩

theorem batchLoop_no_failures (ord : SortOrder) :
    ∀ (entries : List (String × Int)) (i : Nat) (st : SysState)
      (acc : BatchSubmitScoreResponse),
      (Service.batchLoop ord (fun _ => false) entries i st acc).1.successCount =
        acc.successCount + entries.length ∧
      (Service.batchLoop ord (fun _ => false) entries i st acc).1.failureCount =
        acc.failureCount
  | [], i, st, acc => by simp [Service.batchLoop]
  | (u, s) :: t, i, st, acc => by
    obtain ⟨r, st2, heq⟩ := submitScore_false_isOk ord st u s
    have h1 := batchLoop_no_failures ord t (i + 1) st2
      { acc with successCount := acc.successCount + 1, results := acc.results ++ [r] }
    simp only [Service.batchLoop, heq]
    refine ⟨?_, h1.2⟩
    rw [h1.1]
    simp only [List.length_cons]
    omega

/-- C3 (amended): a batch containing an invalid entry (such as a negative
score) is rejected as a whole by the HTTP handler with a 400 validation
message naming the entry, before the service runs and with no cache or rank
effect for any entry; the service layer itself applies no score validation,
so the same entries submitted directly all succeed (successCount equals the
batch size, failureCount 0). -/
theorem C3_batch_validation_rejects_whole :
    (∀ (ord : SortOrder) (fails : Nat → Bool) (st : SysState)
        (entries : List (String × Int)) (msg : String),
      entries.length ≤ 1000 → Handler.firstInvalid entries 0 = some msg →
      Handler.BatchSubmit ord fails st entries = (.rejected msg, st)) ∧
    (∀ (ord : SortOrder) (st : SysState) (entries : List (String × Int)),
      (Service.BatchSubmitScores ord (fun _ => false) st entries).1.successCount =
        entries.length ∧
      (Service.BatchSubmitScores ord (fun _ => false) st entries).1.failureCount = 0) := by
  constructor
  · intro ord fails st entries msg hlen hinv
    have hne : ¬ entries.length = 0 := by
      intro h0
      rw [List.length_eq_zero] at h0
      subst h0
      cases hinv
    have hle : ¬ 1000 < entries.length := by omega
    simp [Handler.BatchSubmit, hne, hle, hinv]
  · intro ord st entries
    have := batchLoop_no_failures ord entries 0 st ⟨0, 0, [], []⟩
    simpa [Service.BatchSubmitScores] using this

/-- C3 counterexample: on the 3-entry batch whose second entry has score −5,
the handler rejects the whole request with a 400 validation message naming
entry 2 and changes nothing — there is no successCount=2/failureCount=1
response and the two valid entries are not applied — while the service
layer, which never checks signs, succeeds on all three entries. -/
theorem C3_counterexample :
    Handler.BatchSubmit .desc (fun _ => false) stEmpty entriesBadTwo =
      (.rejected "entry 2: score must not be negative", stEmpty) ∧
    (Service.BatchSubmitScores .desc (fun _ => false) stEmpty
      entriesBadTwo).1.successCount = 3 ∧
    (Service.BatchSubmitScores .desc (fun _ => false) stEmpty
      entriesBadTwo).1.failureCount = 0 :=
  ⟨rfl, rfl, rfl⟩

/-- C3 witness: the amended behavior at the concrete 3-entry batch. -/
theorem C3_witness :
    entriesBadTwo.length ≤ 1000 ∧
    Handler.firstInvalid entriesBadTwo 0 = some "entry 2: score must not be negative" ∧
    Handler.BatchSubmit .asc (fun _ => false) stTwo entriesBadTwo =
      (.rejected "entry 2: score must not be negative", stTwo) ∧
    (Service.BatchSubmitScores .asc (fun _ => false) stTwo entriesBadTwo).1.successCount = 3 :=
  ⟨by decide, rfl,
    C3_batch_validation_rejects_whole.1 .asc (fun _ => false) stTwo entriesBadTwo _
      (by decide) rfl,
    (C3_batch_validation_rejects_whole.2 .asc stTwo entriesBadTwo).1⟩

/-! ### Indexed-list and range lemmas -/

theorem length_indexedFrom (i : Int) :
    ∀ l : List α, (Redis.indexedFrom i l).length = l.length
  | [] => rfl
  | _ :: xs => by simp [Redis.indexedFrom, length_indexedFrom (i + 1) xs]

theorem map_snd_indexedFrom (i : Int) :
    ∀ l : List α, (Redis.indexedFrom i l).map (fun p => p.2) = l
  | [] => rfl
  | x :: xs => by simp [Redis.indexedFrom, map_snd_indexedFrom (i + 1) xs]

theorem take_indexedFrom (i : Int) :
    ∀ (l : List α) (n : Nat),
      (Redis.indexedFrom i l).take n = Redis.indexedFrom i (l.take n)
  | [], n => by simp [Redis.indexedFrom]
  | x :: xs, 0 => rfl
  | x :: xs, n + 1 => by
    simp [Redis.indexedFrom, List.take_cons, take_indexedFrom (i + 1) xs n]

theorem map_val_indexedFrom (f : Int → Int) :
    ∀ (l : List α) (i : Int),
      (Redis.indexedFrom i l).map (fun p => f p.1) =
        (List.range l.length).map (fun j : Nat => f (i + (j : Int)))
  | [], _ => rfl
  | x :: xs, i => by
    have ih := map_val_indexedFrom f xs (i + 1)
    rw [show Redis.indexedFrom i (x :: xs) = (i, x) :: Redis.indexedFrom (i + 1) xs from rfl,
      List.map_cons, ih, show (x :: xs).length = xs.length + 1 from rfl,
      List.range_succ_eq_map, List.map_cons, List.map_map]
    congr 1
    · simp
    · apply List.map_congr_left
      intro j _
      simp only [Function.comp_apply]
      congr 1
      push_cast
      ring

theorem ordered_length (z : Redis.ZSet) (ord : SortOrder) :
    (Redis.ordered z ord).length = z.length := by
  cases ord <;> simp [Redis.ordered]

theorem redisRange_eq (l : List (String × Int)) (start stop : Int) (h0 : 0 ≤ start)
    (h1 : start ≤ stop) (h2 : stop < (l.length : Int)) :
    Redis.redisRange l start stop = (l.drop start.toNat).take (stop - start + 1).toNat ∧
    ((Redis.redisRange l start stop).length : Int) = stop - start + 1 := by
  have hs : ¬ start < 0 := by omega
  have he : ¬ stop < 0 := by omega
  have hmax : max start 0 = start := by omega
  have hmin : min stop ((l.length : Int) - 1) = stop := by omega
  have hlt : ¬ stop < start := by omega
  have heq : Redis.redisRange l start stop =
      (l.drop start.toNat).take (stop - start + 1).toNat := by
    simp only [Redis.redisRange, if_neg hs, if_neg he, hmax, hmin, if_neg hlt]
  refine ⟨heq, ?_⟩
  rw [heq]
  rw [List.length_take, List.length_drop]
  omega

/-! ### Claim theorems: around-user window -/

/-- C4 (amended): for a user absent from the cache the around-user query
fails with the "user not in leaderboard" error; for a present user it always
succeeds (the window clamps at the boundaries instead of failing); and when
at least `count/2` entries exist on each side of the user, the window holds
exactly `2*(count/2) + 1` consecutive entries centered on the user's rank —
`count` entries when `count` is odd, but `count + 1` when `count` is even,
not the `count` the claim states. -/
theorem C4_around_user_window :
    (∀ (z : Redis.ZSet) (u : String) (count : Int) (ord : SortOrder),
      Redis.GetRank z u ord = 0 →
      Redis.GetRankingsAroundUser z u count ord = .error "user not in leaderboard") ∧
    (∀ (z : Redis.ZSet) (u : String) (count : Int) (ord : SortOrder),
      ¬ Redis.GetRank z u ord = 0 →
      ∃ l, Redis.GetRankingsAroundUser z u count ord = .ok l) ∧
    (∀ (z : Redis.ZSet) (u : String) (count : Int) (ord : SortOrder),
      0 ≤ count →
      count.tdiv 2 ≤ Redis.GetRank z u ord - 1 →
      count.tdiv 2 ≤ (z.length : Int) - Redis.GetRank z u ord →
      ∃ l, Redis.GetRankingsAroundUser z u count ord = .ok l ∧
        (l.length : Int) = 2 * count.tdiv 2 + 1 ∧
        l.map (fun e => e.rank) =
          (List.range l.length).map
            (fun j : Nat => Redis.GetRank z u ord - count.tdiv 2 + (j : Int))) := by
  refine ⟨?_, ?_, ?_⟩
  · intro z u count ord h
    simp [Redis.GetRankingsAroundUser, h]
  · intro z u count ord h
    simp only [Redis.GetRankingsAroundUser, if_neg h]
    exact ⟨_, rfl⟩
  · intro z u count ord hcnt hleft hright
    have hhalf : 0 ≤ count.tdiv 2 := Int.tdiv_nonneg hcnt (by norm_num)
    have hr0 : ¬ Redis.GetRank z u ord = 0 := by omega
    have hs0 : ¬ Redis.GetRank z u ord - count.tdiv 2 - 1 < 0 := by omega
    have hlen : ((Redis.ordered z ord).length : Int) = (z.length : Int) := by
      rw [ordered_length]
    have hrange := redisRange_eq (Redis.ordered z ord)
      (Redis.GetRank z u ord - count.tdiv 2 - 1)
      (Redis.GetRank z u ord + count.tdiv 2 - 1)
      (by omega) (by omega) (by omega)
    have heq : Redis.GetRankingsAroundUser z u count ord =
        .ok ((Redis.indexedFrom 0 (Redis.redisRange (Redis.ordered z ord)
          (Redis.GetRank z u ord - count.tdiv 2 - 1)
          (Redis.GetRank z u ord + count.tdiv 2 - 1))).map
          (fun p => ⟨p.2.1, p.2.2,
            (Redis.GetRank z u ord - count.tdiv 2 - 1) + p.1 + 1⟩)) := by
      simp [Redis.GetRankingsAroundUser, hr0, hs0]
    refine ⟨_, heq, ?_, ?_⟩
    · rw [List.length_map, length_indexedFrom]
      have := hrange.2
      omega
    · rw [List.map_map]
      have hmm : ((fun e : RankingEntry => e.rank) ∘
          (fun p : Int × (String × Int) => (⟨p.2.1, p.2.2,
            (Redis.GetRank z u ord - count.tdiv 2 - 1) + p.1 + 1⟩ : RankingEntry))) =
          (fun p : Int × (String × Int) =>
            (Redis.GetRank z u ord - count.tdiv 2 - 1) + p.1 + 1) := rfl
      rw [hmm, map_val_indexedFrom
        (fun x => (Redis.GetRank z u ord - count.tdiv 2 - 1) + x + 1)]
      rw [List.length_map, length_indexedFrom]
      apply List.map_congr_left
      intro j _
      ring

/-- C4 counterexample: five users, `u3` at rank 3 with exactly `4/2 = 2`
entries on each side; the around-user query with `count = 4` returns 5
entries, not 4. -/
theorem C4_counterexample :
    Redis.GetRankingsAroundUser zFive "u3" 4 .desc =
      .ok [⟨"u5", 50, 1⟩, ⟨"u4", 40, 2⟩, ⟨"u3", 30, 3⟩, ⟨"u2", 20, 4⟩, ⟨"u1", 10, 5⟩] ∧
    Redis.GetRank zFive "u3" .desc = 3 ∧ zFive.length = 5 ∧
    ¬ ∃ l, Redis.GetRankingsAroundUser zFive "u3" 4 .desc = .ok l ∧ l.length = 4 := by
  refine ⟨rfl, rfl, rfl, ?_⟩
  rintro ⟨l, hl, hlen⟩
  rw [show Redis.GetRankingsAroundUser zFive "u3" 4 .desc =
    .ok [⟨"u5", 50, 1⟩, ⟨"u4", 40, 2⟩, ⟨"u3", 30, 3⟩, ⟨"u2", 20, 4⟩, ⟨"u1", 10, 5⟩]
    from rfl] at hl
  injection hl with h
  rw [← h] at hlen
  simp at hlen

/-- C4 witness: the amended window size at the concrete five-user cache. -/
theorem C4_witness :
    (0 : Int) ≤ 4 ∧
    (4 : Int).tdiv 2 ≤ Redis.GetRank zFive "u3" .desc - 1 ∧
    (4 : Int).tdiv 2 ≤ (zFive.length : Int) - Redis.GetRank zFive "u3" .desc ∧
    ∃ l, Redis.GetRankingsAroundUser zFive "u3" 4 .desc = .ok l ∧
      (l.length : Int) = 2 * (4 : Int).tdiv 2 + 1 := by
  refine ⟨by decide, by decide, by decide, ?_⟩
  obtain ⟨l, h1, h2, _⟩ :=
    C4_around_user_window.2.2 zFive "u3" 4 .desc (by decide) (by decide) (by decide)
  exact ⟨l, h1, h2⟩

/-! ### Pagination lemmas -/

theorem filter_indexedFrom_all (offset : Int) :
    ∀ (l : List α) (i : Int), offset ≤ i →
      (Redis.indexedFrom i l).filter (fun p => decide (offset ≤ p.1)) =
        Redis.indexedFrom i l
  | [], _, _ => rfl
  | x :: xs, i, h => by
    rw [show Redis.indexedFrom i (x :: xs) = (i, x) :: Redis.indexedFrom (i + 1) xs from rfl,
      List.filter_cons_of_pos (by simpa using h),
      filter_indexedFrom_all offset xs (i + 1) (by omega)]

theorem filter_indexedFrom_drop (offset : Int) :
    ∀ (l : List α) (i : Int), i ≤ offset →
      (Redis.indexedFrom i l).filter (fun p => decide (offset ≤ p.1)) =
        Redis.indexedFrom offset (l.drop (offset - i).toNat)
  | [], i, _ => by simp [Redis.indexedFrom]
  | x :: xs, i, h => by
    by_cases hoi : offset ≤ i
    · have hieq : i = offset := le_antisymm h hoi
      subst hieq
      rw [filter_indexedFrom_all i (x :: xs) i le_rfl]
      simp
    · rw [show Redis.indexedFrom i (x :: xs) = (i, x) :: Redis.indexedFrom (i + 1) xs from rfl,
        List.filter_cons_of_neg (by simpa using hoi),
        filter_indexedFrom_drop offset xs (i + 1) (by omega)]
      have hn : (offset - i).toNat = (offset - (i + 1)).toNat + 1 := by omega
      rw [hn, List.drop_succ_cons]

theorem collectRankings_eq_filter (limit offset : Int) :
    ∀ (l : List ScoreRecord) (i cnt : Int), 0 ≤ cnt → cnt + 1 ≤ limit →
      Service.collectRankings limit offset l i cnt =
        (((Redis.indexedFrom i l).filter (fun p => decide (offset ≤ p.1))).take
          (limit - cnt).toNat).map
          (fun p => ⟨p.2.userID, p.2.score, p.1 + 1⟩)
  | [], i, cnt, _, _ => by simp [Service.collectRankings, Redis.indexedFrom]
  | r :: rs, i, cnt, h0, h1 => by
    rw [show Redis.indexedFrom i (r :: rs) = (i, r) :: Redis.indexedFrom (i + 1) rs from rfl]
    by_cases hio : i < offset
    · rw [List.filter_cons_of_neg (by simpa using (by omega : ¬ offset ≤ i)),
        show Service.collectRankings limit offset (r :: rs) i cnt =
          Service.collectRankings limit offset rs (i + 1) cnt from by
            simp [Service.collectRankings, hio]]
      exact collectRankings_eq_filter limit offset rs (i + 1) cnt h0 h1
    · rw [List.filter_cons_of_pos (by simpa using (by omega : offset ≤ i))]
      by_cases hlim : limit ≤ cnt + 1
      · have hone : (limit - cnt).toNat = 1 := by omega
        rw [hone,
          show Service.collectRankings limit offset (r :: rs) i cnt =
            [⟨r.userID, r.score, i + 1⟩] from by simp [Service.collectRankings, hio, hlim]]
        simp
      · have hn : (limit - cnt).toNat = (limit - (cnt + 1)).toNat + 1 := by omega
        rw [hn, List.take_succ_cons, List.map_cons,
          show Service.collectRankings limit offset (r :: rs) i cnt =
            (⟨r.userID, r.score, i + 1⟩ : RankingEntry) ::
              Service.collectRankings limit offset rs (i + 1) (cnt + 1) from by
                simp [Service.collectRankings, hio, hlim],
          collectRankings_eq_filter limit offset rs (i + 1) (cnt + 1) (by omega) (by omega)]

theorem getRankings_db (ord : SortOrder) (st : SysState) (limit offset : Int)
    (hoff : ¬ offset = 0) :
    Service.GetRankings ord st limit offset =
      (Service.collectRankings limit offset
        (Mongo.GetTopScores st.history (limit + offset) ord) 0 0, st) := by
  simp [Service.GetRankings, hoff]

/-! ### Sort-order lemmas for the top-score pipeline -/

theorem recBefore_iff (ord : SortOrder) (a b : ScoreRecord) :
    Mongo.recBefore ord a b = true ↔
      (a.score = b.score ∧ a.submittedAt = b.submittedAt ∧ a.userID ≤ b.userID) ∨
      (a.score = b.score ∧ b.submittedAt < a.submittedAt) ∨
      (¬ a.score = b.score ∧
        (match ord with
         | SortOrder.desc => b.score < a.score
         | SortOrder.asc => a.score < b.score)) := by
  cases ord <;> by_cases hs : a.score = b.score <;>
    by_cases ht : a.submittedAt = b.submittedAt <;>
    simp [Mongo.recBefore, hs, ht]

theorem recBefore_total (ord : SortOrder) (a b : ScoreRecord) :
    Mongo.recBefore ord a b = true ∨ Mongo.recBefore ord b a = true := by
  rw [recBefore_iff, recBefore_iff]
  by_cases hs : a.score = b.score
  · by_cases ht : a.submittedAt = b.submittedAt
    · rcases le_total a.userID b.userID with hu | hu
      · exact Or.inl (Or.inl ⟨hs, ht, hu⟩)
      · exact Or.inr (Or.inl ⟨hs.symm, ht.symm, hu⟩)
    · rcases Nat.lt_or_ge a.submittedAt b.submittedAt with h | h
      · exact Or.inr (Or.inr (Or.inl ⟨hs.symm, h⟩))
      · exact Or.inl (Or.inr (Or.inl ⟨hs, by omega⟩))
  · cases ord <;> dsimp only <;> rcases Int.lt_or_lt_of_ne (fun hh => hs hh) with h | h
    · exact Or.inr (Or.inr (Or.inr ⟨fun hh => hs hh.symm, h⟩))
    · exact Or.inl (Or.inr (Or.inr ⟨hs, h⟩))
    · exact Or.inl (Or.inr (Or.inr ⟨hs, h⟩))
    · exact Or.inr (Or.inr (Or.inr ⟨fun hh => hs hh.symm, h⟩))

theorem recBefore_trans (ord : SortOrder) (a b c : ScoreRecord)
    (hab : Mongo.recBefore ord a b = true) (hbc : Mongo.recBefore ord b c = true) :
    Mongo.recBefore ord a c = true := by
  rw [recBefore_iff] at hab hbc ⊢
  cases ord <;> dsimp only at hab hbc ⊢ <;>
    rcases hab with ⟨h1, h2, h3⟩ | ⟨h1, h2⟩ | ⟨h1, h2⟩ <;>
    rcases hbc with ⟨g1, g2, g3⟩ | ⟨g1, g2⟩ | ⟨g1, g2⟩ <;>
    first
      | exact Or.inl ⟨by omega, by omega,
          le_trans ‹a.userID ≤ b.userID› ‹b.userID ≤ c.userID›⟩
      | exact Or.inr (Or.inl ⟨by omega, by omega⟩)
      | exact Or.inr (Or.inr ⟨by omega, by omega⟩)

theorem recBefore_scoreLE (ord : SortOrder) (a b : ScoreRecord)
    (h : Mongo.recBefore ord a b = true) : scoreOrdered ord a.score b.score := by
  rw [recBefore_iff] at h
  cases ord <;> simp only [scoreOrdered] <;> dsimp only at h <;>
    rcases h with ⟨h1, _, _⟩ | ⟨h1, _⟩ | ⟨_, h2⟩ <;> omega

theorem mem_insertSorted (le : ScoreRecord → ScoreRecord → Bool) (x y : ScoreRecord)
    (l : List ScoreRecord) :
    y ∈ Mongo.insertSorted le x l ↔ y = x ∨ y ∈ l := by
  rw [(insertSorted_perm le x l).mem_iff]
  simp

theorem pairwise_insertSorted (le : ScoreRecord → ScoreRecord → Bool)
    (htot : ∀ a b, le a b = true ∨ le b a = true)
    (htr : ∀ a b c, le a b = true → le b c = true → le a c = true) (x : ScoreRecord) :
    ∀ l, List.Pairwise (fun a b => le a b = true) l →
      List.Pairwise (fun a b => le a b = true) (Mongo.insertSorted le x l)
  | [], _ => by simp [Mongo.insertSorted]
  | y :: ys, hp => by
    rw [List.pairwise_cons] at hp
    by_cases hb : le x y = true
    · rw [show Mongo.insertSorted le x (y :: ys) = x :: y :: ys from by
        simp [Mongo.insertSorted, hb]]
      rw [List.pairwise_cons]
      refine ⟨?_, List.pairwise_cons.mpr hp⟩
      intro z hz
      rcases List.mem_cons.mp hz with rfl | hz2
      · exact hb
      · exact htr x y z hb (hp.1 z hz2)
    · rw [show Mongo.insertSorted le x (y :: ys) = y :: Mongo.insertSorted le x ys from by
        simp [Mongo.insertSorted, hb]]
      rw [List.pairwise_cons]
      refine ⟨?_, pairwise_insertSorted le htot htr x ys hp.2⟩
      intro z hz
      rcases (mem_insertSorted le x z ys).mp hz with rfl | hz2
      · rcases htot z y with h | h
        · exact absurd h hb
        · exact h
      · exact hp.1 z hz2

theorem pairwise_sortRecs (le : ScoreRecord → ScoreRecord → Bool)
    (htot : ∀ a b, le a b = true ∨ le b a = true)
    (htr : ∀ a b c, le a b = true → le b c = true → le a c = true) :
    ∀ l, List.Pairwise (fun a b => le a b = true) (Mongo.sortRecs le l)
  | [] => List.Pairwise.nil
  | x :: xs => pairwise_insertSorted le htot htr x _ (pairwise_sortRecs le htot htr xs)

theorem pairwise_GetTopScores (h : List ScoreRecord) (limit : Int) (ord : SortOrder) :
    List.Pairwise (fun a b => Mongo.recBefore ord a b = true)
      (Mongo.GetTopScores h limit ord) := by
  have hp := pairwise_sortRecs (Mongo.recBefore ord) (recBefore_total ord)
    (recBefore_trans ord) (Mongo.latestRecords h)
  simp only [Mongo.GetTopScores]
  by_cases hl : 0 < limit
  · rw [if_pos hl]
    exact List.Pairwise.sublist (List.take_sublist _ _) hp
  · rwa [if_neg hl]

/-! ### Claim theorem: pagination of GetRankings -/

/-- C8: a `GetRankings` request with a non-zero offset never reads the
cache: the answer is a function of the durable history alone, namely the
store's `GetTopScores` for `limit + offset` latest-per-user records with the
first `offset` skipped, each entry carrying rank `offset + position + 1`
(hence 1-based ranks `offset + 1, offset + 2, …`) in the store's sort
order. -/
theorem C8_rankings_pagination :
    (∀ (ord : SortOrder) (st1 st2 : SysState) (limit offset : Int),
      st1.history = st2.history → ¬ offset = 0 →
      (Service.GetRankings ord st1 limit offset).1 =
        (Service.GetRankings ord st2 limit offset).1) ∧
    (∀ (ord : SortOrder) (st : SysState) (limit offset : Int),
      1 ≤ limit → 1 ≤ offset →
      (Service.GetRankings ord st limit offset).1 =
        ((Redis.indexedFrom offset
          ((Mongo.GetTopScores st.history (limit + offset) ord).drop offset.toNat)).take
            limit.toNat).map (fun p => ⟨p.2.userID, p.2.score, p.1 + 1⟩) ∧
      (Service.GetRankings ord st limit offset).1.map (fun e => e.rank) =
        (List.range (Service.GetRankings ord st limit offset).1.length).map
          (fun j : Nat => offset + (j : Int) + 1) ∧
      List.Pairwise (fun a b : RankingEntry => scoreOrdered ord a.score b.score)
        (Service.GetRankings ord st limit offset).1) := by
  constructor
  · intro ord st1 st2 limit offset hh hoff
    rw [getRankings_db ord st1 limit offset hoff, getRankings_db ord st2 limit offset hoff]
    simp [hh]
  · intro ord st limit offset hlim hoff
    have hoff0 : ¬ offset = 0 := by omega
    have hrepr : (Service.GetRankings ord st limit offset).1 =
        ((Redis.indexedFrom offset
          ((Mongo.GetTopScores st.history (limit + offset) ord).drop offset.toNat)).take
            limit.toNat).map (fun p => ⟨p.2.userID, p.2.score, p.1 + 1⟩) := by
      rw [getRankings_db ord st limit offset hoff0]
      dsimp only
      rw [collectRankings_eq_filter limit offset _ 0 0 le_rfl (by omega),
        filter_indexedFrom_drop offset _ 0 (by omega)]
      rw [Int.sub_zero, Int.sub_zero]
    refine ⟨hrepr, ?_, ?_⟩
    · rw [hrepr, take_indexedFrom, List.map_map]
      rw [show ((fun e : RankingEntry => e.rank) ∘
          (fun p : Int × ScoreRecord =>
            (⟨p.2.userID, p.2.score, p.1 + 1⟩ : RankingEntry))) =
          (fun p : Int × ScoreRecord => p.1 + 1) from rfl]
      rw [map_val_indexedFrom (fun x => x + 1), List.length_map, length_indexedFrom]
    · rw [hrepr, take_indexedFrom, List.pairwise_map]
      have hD : List.Pairwise (fun a b : ScoreRecord => scoreOrdered ord a.score b.score)
          (((Mongo.GetTopScores st.history (limit + offset) ord).drop
            offset.toNat).take limit.toNat) := by
        have hp := (pairwise_GetTopScores st.history (limit + offset) ord).imp
          (fun hab => recBefore_scoreLE ord _ _ hab)
        exact List.Pairwise.sublist
          ((List.take_sublist _ _).trans (List.drop_sublist _ _)) hp
      have hD2 := List.pairwise_map.mp
        (by rw [map_snd_indexedFrom offset]; exact hD)
      exact hD2

/-- C8 witness: with limit 1 and offset 1 on the two-user history, the
single returned entry carries rank 2. -/
theorem C8_witness :
    (1 : Int) ≤ 1 ∧
    (Service.GetRankings .desc stTwo 1 1).1.map (fun e => e.rank) =
      (List.range (Service.GetRankings .desc stTwo 1 1).1.length).map
        (fun j : Nat => 1 + (j : Int) + 1) :=
  ⟨le_rfl, (C8_rankings_pagination.2 .desc stTwo 1 1 le_rfl le_rfl).2.1⟩
